import Mathlib

/-!
Verification of the Worthies/Files HTTP file server (main.go).

Go strings are modelled as `List Char`; Go `int64` values as `Int` (with the
explicit `strconv.ParseInt` range check where the source performs one); header
maps as functions `String → Option String`; byte streams as `List Nat`.
-/

set_option maxHeartbeats 1000000
set_option maxRecDepth 2000

/-! ### Generic string helpers (models of Go `strings` functions) -/

/-- Models `unicode.IsSpace` on the Latin-1 characters that can occur in
HTTP header values (space, tab, LF, VT, FF, CR, NEL, NBSP). -/
def goIsSpace (c : Char) : Bool :=
  (c.toNat == 32) || (c.toNat == 9) || (c.toNat == 10) || (c.toNat == 13) ||
  (c.toNat == 11) || (c.toNat == 12) || (c.toNat == 133) || (c.toNat == 160)

/-- Models `strings.TrimSpace`: drop whitespace from both ends. -/
def goTrim (l : List Char) : List Char :=
  ((l.dropWhile goIsSpace).reverse.dropWhile goIsSpace).reverse

/-- Models `strings.Split` with a one-character separator: splits into the
(nonempty) list of separator-free chunks. -/
def splitOnChar (sep : Char) : List Char → List (List Char)
  | [] => [[]]
  | c :: rest =>
    match splitOnChar sep rest with
    | [] => [[]]
    | h :: t => if c = sep then [] :: h :: t else (c :: h) :: t

/-- Decimal-digit accumulation, as `strconv.ParseInt` does for base 10:
fails on the first non-digit character. -/
def digitsVal (acc : Nat) : List Char → Option Nat
  | [] => some acc
  | c :: rest => if c.isDigit then digitsVal (10 * acc + (c.toNat - 48)) rest else none

/-- The digit part of `strconv.ParseInt`: a nonempty all-digit string. -/
def parseDigs (l : List Char) : Option Nat :=
  if l = [] then none else digitsVal 0 l

def int64Max : Nat := 2 ^ 63 - 1

/-- Models `strconv.ParseInt(s, 10, 64)`: optional sign, nonempty decimal
digits, result in the int64 range, otherwise an error (`none`). -/
def goParseInt (l : List Char) : Option Int :=
  match l with
  | [] => none
  | c :: rest =>
    if c = '+' then
      (parseDigs rest).bind fun n => if n ≤ int64Max then some (Int.ofNat n) else none
    else if c = '-' then
      (parseDigs rest).bind fun n => if n ≤ 2 ^ 63 then some (-(Int.ofNat n)) else none
    else
      (parseDigs (c :: rest)).bind fun n => if n ≤ int64Max then some (Int.ofNat n) else none

/-! ### The Range header parser (model of `parseRange` in main.go) -/

/-- Model of `byteRange` in main.go; the Go field `end` is named `stop`
here because `end` is a Lean keyword. Both bounds are inclusive. -/
structure byteRange where
  start : Int
  stop : Int
deriving DecidableEq

/-- The start/end computation of one range spec in `parseRange` (main.go
lines 648-685), before the validation at line 687: trims the spec, splits on
the dash into exactly two parts, and handles the three shapes
(suffix `-N`, open `N-`, full `N-M`). Errors from `strconv.ParseInt`
propagate as `none`. -/
def computeSpec (spec : List Char) (size : Int) : Option (Int × Int) :=
  let sp := goTrim spec
  match splitOnChar '-' sp with
  | [p0, p1] =>
    if p0 = [] then
      (goParseInt p1).map fun n =>
        let start := size - n
        ((if start < 0 then 0 else start), size - 1)
    else if p1 = [] then
      (goParseInt p0).map fun n => (n, size - 1)
    else
      match goParseInt p0, goParseInt p1 with
      | some a, some b => some (a, b)
      | _, _ => none
  | _ => none

/-- The validation at main.go line 687:
`start < 0 || start >= size || end < start || end >= size` rejects the spec. -/
def validateRange (size : Int) (p : Int × Int) : Option byteRange :=
  if p.1 < 0 ∨ size ≤ p.1 ∨ p.2 < p.1 ∨ size ≤ p.2 then none
  else some ⟨p.1, p.2⟩

/-- One range spec of `parseRange`: compute start/end, then validate. -/
def parseSpec (spec : List Char) (size : Int) : Option byteRange :=
  (computeSpec spec size).bind (validateRange size)

/-- Option-valued map over a list, returning on the first error, as the
loop in `parseRange` does. -/
def mapMOpt (f : α → Option β) : List α → Option (List β)
  | [] => some []
  | a :: t => (f a).bind fun b => (mapMOpt f t).map fun bs => b :: bs

/-- Model of `parseRange(s string, size int64)` in main.go: the header must
start with `bytes=`; the remainder is split on commas and every spec must
parse and validate, else the whole request errors. -/
def parseRange (s : List Char) (size : Int) : Option (List byteRange) :=
  if "bytes=".data.isPrefixOf s then
    mapMOpt (parseSpec · size) (splitOnChar ',' (s.drop 6))
  else none

/-! ### Lexical path functions (models of Go `path/filepath`) -/

/-- Models `filepath.Base`: empty path gives `.`; otherwise trailing
separators are removed and the last element is returned; an all-separator
path gives `/`. -/
def goBase (p : List Char) : List Char :=
  if p = [] then ['.']
  else if p.reverse.dropWhile (· = '/') = [] then ['/']
  else ((p.reverse.dropWhile (· = '/')).takeWhile (· ≠ '/')).reverse

/-- Joins path segments with `/` (the rendering step of `filepath.Clean`). -/
def joinSegs : List (List Char) → List Char
  | [] => []
  | [s] => s
  | s :: rest => s ++ '/' :: joinSegs rest

/-- The element-processing loop of `filepath.Clean`: empty and `.` segments
are dropped; `..` pops the last kept segment, or is dropped at the root of a
rooted path, or is kept in a relative path with nothing to pop. `out` holds
the kept segments in reverse. -/
def cleanSegsAux : List (List Char) → Bool → List (List Char) → List (List Char)
  | [], _, out => out.reverse
  | s :: rest, rooted, out =>
    if s = [] ∨ s = ['.'] then cleanSegsAux rest rooted out
    else if s = ['.', '.'] then
      match out with
      | o :: os =>
        if o = ['.', '.'] then cleanSegsAux rest rooted (s :: o :: os)
        else cleanSegsAux rest rooted os
      | [] => if rooted then cleanSegsAux rest rooted [] else cleanSegsAux rest rooted [s]
    else cleanSegsAux rest rooted (s :: out)

/-- Models `filepath.Clean` (lexical cleaning, Unix separators): applies the
documented rules — drop `.` and empty elements, resolve `..` against earlier
elements, never above the root of a rooted path — and renders the result,
returning `.` for an empty relative result and `/` for an empty rooted one. -/
def goClean (p : List Char) : List Char :=
  if p = [] then ['.']
  else if p.head? = some '/' then
    if joinSegs (cleanSegsAux (splitOnChar '/' p) true []) = [] then ['/']
    else '/' :: joinSegs (cleanSegsAux (splitOnChar '/' p) true [])
  else
    if joinSegs (cleanSegsAux (splitOnChar '/' p) false []) = [] then ['.']
    else joinSegs (cleanSegsAux (splitOnChar '/' p) false [])

/-- Models the two-argument `filepath.Join`: non-empty elements joined with
`/`, then cleaned; all-empty input gives the empty string uncleaned. -/
def goJoin (a b : List Char) : List Char :=
  if a = [] then (if b = [] then [] else goClean b)
  else if b = [] then goClean a
  else goClean (a ++ '/' :: b)

/-- Renders an absolute path from separator-free segments: `/` for `[]`. -/
def renderAbs (segs : List (List Char)) : List Char :=
  '/' :: joinSegs segs

/-- A path segment that `filepath.Clean` keeps unchanged. -/
def normalSeg (s : List Char) : Prop :=
  s ≠ [] ∧ s ≠ ['.'] ∧ s ≠ ['.', '.'] ∧ '/' ∉ s

instance (s : List Char) : Decidable (normalSeg s) := by
  unfold normalSeg; infer_instance

/-! ### The path-containment check (main.go lines 175 and 260) -/

/-- The containment check the code performs on the resolved absolute
candidate: `strings.HasPrefix(cleanPath, cleanWorkingDir)` — a raw string
prefix test. `true` means the request is accepted; `false` maps to a 403. -/
def rawContainsCheck (root candidate : List Char) : Bool :=
  root.isPrefixOf candidate

/-- Modelled from the spec: the containment check the spec demands — the
candidate must equal the root or begin with the root followed immediately by
a path separator. -/
def specContainsCheck (root candidate : List Char) : Bool :=
  candidate = root || (root ++ ['/']).isPrefixOf candidate

/-! ### HTTP response model -/

/-- An HTTP header map, with `Set` and `Del` as in Go `http.Header`. -/
def hdrSet (h : String → Option String) (k v : String) : String → Option String :=
  fun q => if q = k then some v else h q

def hdrDel (h : String → Option String) (k : String) : String → Option String :=
  fun q => if q = k then none else h q

def hdrEmpty : String → Option String := fun _ => none

/-- UTF-8 bytes of an ASCII string. -/
def strBytes (s : String) : List Nat := s.data.map Char.toNat

/-- What a handler produces: status code, headers, and the bytes the handler
itself writes as the body. -/
structure HttpResponse where
  status : Nat
  header : String → Option String
  body : List Nat

/-- Models `http.Error(w, msg, code)`: deletes `Content-Length`, sets
`Content-Type` and `X-Content-Type-Options`, writes the status code, and
writes `msg` followed by a newline as the body. -/
def httpError (h : String → Option String) (msg : String) (code : Nat) : HttpResponse :=
  let h1 := hdrDel h "Content-Length"
  let h2 := hdrSet h1 "Content-Type" "text/plain; charset=utf-8"
  let h3 := hdrSet h2 "X-Content-Type-Options" "nosniff"
  { status := code, header := h3, body := strBytes (msg ++ "\x0a") }

/-! ### Download handler (model of `downloadHandler`, main.go lines 290-348)

The model starts after the path, open and stat steps: the file content is
given as bytes, and the MIME policy result (content type, disposition) and
base file name as strings. `isHead` is `r.Method == http.MethodHead`;
`rangeHeader` is `r.Header.Get("Range")`, the empty string when absent. -/

def downloadResponse (fileName contentType disposition : String)
    (content : List Nat) (isHead : Bool) (rangeHeader : List Char) : HttpResponse :=
  let fileSize : Int := content.length
  let h1 := hdrSet hdrEmpty "Content-Disposition"
      (disposition ++ "; filename=\x22" ++ fileName ++ "\x22")
  let h2 := hdrSet h1 "Accept-Ranges" "bytes"
  let h3 := hdrSet h2 "Content-Type" contentType
  if rangeHeader = [] then
    { status := 200
      header := hdrSet h3 "Content-Length" (toString fileSize)
      body := if isHead then [] else content }
  else
    match parseRange rangeHeader fileSize with
    | some [r] =>
      let contentLength := r.stop - r.start + 1
      let h4 := hdrSet h3 "Content-Range"
          ("bytes " ++ toString r.start ++ "-" ++ toString r.stop ++ "/" ++ toString fileSize)
      let h5 := hdrSet h4 "Content-Length" (toString contentLength)
      { status := 206
        header := h5
        body := if isHead then [] else (content.drop r.start.toNat).take contentLength.toNat }
    | _ =>
      httpError (hdrSet h3 "Content-Range" ("bytes */" ++ toString fileSize)) "Invalid range" 416

/-! ### Upload handler (model of `uploadHandler`, main.go lines 362-429) -/

/-- The argument the code passes to `r.ParseMultipartForm` (100 << 20). -/
def maxMultipartMemory : Nat := 100 * 1024 * 1024

/-- A POST /upload request, already at the multipart level: the `file` part
(its client-supplied filename and bytes), the optional `directory` field
(empty when absent), the size of the multipart overhead (boundaries and part
headers) and whether the multipart body is well formed. -/
structure UploadReq where
  filename : List Char
  fileContent : List Nat
  directory : List Char
  overheadBytes : Nat
  wellFormedMultipart : Bool

/-- The total request body size: file bytes plus multipart overhead. -/
def totalBodySize (req : UploadReq) : Nat :=
  req.overheadBytes + req.fileContent.length

/-- Models `Request.ParseMultipartForm(maxMemory)` from Go net/http: the
whole body is parsed and up to `maxMemory` bytes of the file parts are held
in memory, the remainder spilling to temporary files — the argument does not
bound the accepted body size. Parsing fails only on a malformed body. -/
def parseMultipartFormOk (_maxMemory : Nat) (req : UploadReq) : Bool :=
  req.wellFormedMultipart

/-- Outcome of an upload: the HTTP status and, when the destination file was
created, the path and bytes written to it. -/
structure UploadOutcome where
  status : Nat
  written : Option (List Char × List Nat)
deriving DecidableEq

/-- Model of `uploadHandler` for POST, after method dispatch: parse the
multipart form (400 on failure); resolve the optional subdirectory with
Clean + Join and the `strings.HasPrefix` containment check (403 on failure),
creating it via MkdirAll; create the destination at
`filepath.Join(targetDir, filepath.Base(header.Filename))` — `os.Create`
fails (500) when that path is an existing directory in `dirs` — and copy the
file bytes there, then redirect (303). `dirs` lists the directories existing
on disk; MkdirAll makes the target directory exist. -/
def uploadResponse (workingDir : List Char) (dirs : List (List Char))
    (req : UploadReq) : UploadOutcome :=
  if parseMultipartFormOk maxMultipartMemory req = false then
    { status := 400, written := none }
  else
    let tgt : Option (List Char × List (List Char)) :=
      if req.directory = [] then some (workingDir, dirs)
      else
        let subDir := goClean req.directory
        let targetDir := goJoin workingDir subDir
        if rawContainsCheck workingDir targetDir then some (targetDir, targetDir :: dirs)
        else none
    match tgt with
    | none => { status := 403, written := none }
    | some (targetDir, dirs1) =>
      let dstPath := goJoin targetDir (goBase req.filename)
      if dstPath ∈ dirs1 then { status := 500, written := none }
      else { status := 303, written := some (dstPath, req.fileContent) }

/-! ### Directory listing (model of the loop in `browseHandler`,
main.go lines 204-218) -/

/-- The part of `os.FileInfo` the listing reads. -/
structure EntryInfo where
  size : Int
  modTime : Int
deriving DecidableEq

/-- A `os.DirEntry` as the loop sees it: `info = none` models
`entry.Info()` returning an error. -/
structure DirEntry where
  name : List Char
  isDir : Bool
  info : Option EntryInfo
deriving DecidableEq

/-- The `FileInfo` record built for one listed entry (main.go lines 211-217). -/
structure FileEntry where
  Name : List Char
  Path : List Char
  Size : Int
  ModTime : Int
  IsDir : Bool
deriving DecidableEq

def mkFileEntry (requestedPath : List Char) (e : DirEntry) (i : EntryInfo) : FileEntry :=
  { Name := e.name
    Path := goJoin requestedPath e.name
    Size := i.size
    ModTime := i.modTime
    IsDir := e.isDir }

/-- The listing loop: entries whose `Info()` errors are skipped with
`continue`; the rest are appended in order. -/
def listFiles (requestedPath : List Char) : List DirEntry → List FileEntry
  | [] => []
  | e :: rest =>
    match e.info with
    | none => listFiles requestedPath rest
    | some i => mkFileEntry requestedPath e i :: listFiles requestedPath rest

/-! ### Canonical decimal digits (to state claims about the header text
`bytes=-N` for an arbitrary numeral `N`) -/

/-- Big-endian decimal digits of a positive number, accumulator style
(`natToDigitsAux n acc` prepends the digits of `n` to `acc`). -/
def natToDigitsAux (n : Nat) (acc : List Char) : List Char :=
  if h : n = 0 then acc
  else natToDigitsAux (n / 10) (Char.ofNat (48 + n % 10) :: acc)
termination_by n
decreasing_by exact Nat.div_lt_self (Nat.pos_of_ne_zero h) (by omega)

/-- The canonical decimal digit string of a natural number. -/
def natToDigits (n : Nat) : List Char :=
  if n = 0 then ['0'] else natToDigitsAux n []

/-! ### Sanity checks of the models on concrete inputs -/

example : parseRange "bytes=0-4".data 10 = some [⟨0, 4⟩] := by decide
example : parseRange "bytes=-3".data 10 = some [⟨7, 9⟩] := by decide
example : parseRange "bytes=5-".data 10 = some [⟨5, 9⟩] := by decide
example : parseRange "bytes=2-1".data 10 = none := by decide
example : parseRange "bytes=0-4,9-20".data 10 = none := by decide
example : parseRange "bytes=0-4, 6-7".data 10 = some [⟨0, 4⟩, ⟨6, 7⟩] := by decide
example : parseRange "bytes=abc".data 10 = none := by decide
example : parseRange "bites=0-4".data 10 = none := by decide
example : goClean "/srv/files/..".data = "/srv".data := by decide
example : goClean "/srv//files/.".data = "/srv/files".data := by decide
example : goClean "a/..".data = ".".data := by decide
example : goClean "/..".data = "/".data := by decide
example : goJoin "/srv/files".data "a/..".data = "/srv/files".data := by decide
example : goJoin "/srv/files".data "..".data = "/srv".data := by decide
example : goBase "a/b/c.txt".data = "c.txt".data := by decide
example : goBase "a/..".data = "..".data := by decide
example : goBase "abc//".data = "abc".data := by decide
example : goBase "///".data = "/".data := by decide
example : goBase "".data = ".".data := by decide
example : ("bytes=-" ++ Nat.repr 500).data = "bytes=-500".data := by decide

/-! ### Lemmas about splitting and option-mapping -/

theorem splitOnChar_nil (sep : Char) : splitOnChar sep [] = [[]] := rfl

theorem splitOnChar_cons (sep c : Char) (rest : List Char) :
    splitOnChar sep (c :: rest) =
      match splitOnChar sep rest with
      | [] => [[]]
      | h :: t => if c = sep then [] :: h :: t else (c :: h) :: t := rfl

theorem splitOnChar_ne_nil (sep : Char) (l : List Char) : splitOnChar sep l ≠ [] := by
  cases l with
  | nil => simp [splitOnChar_nil]
  | cons c rest =>
    rw [splitOnChar_cons]
    cases hsp : splitOnChar sep rest with
    | nil => simp
    | cons a t => by_cases hc : c = sep <;> simp [hc]

theorem splitOnChar_cons_sep (sep : Char) (l : List Char) :
    splitOnChar sep (sep :: l) = [] :: splitOnChar sep l := by
  rw [splitOnChar_cons]
  cases h : splitOnChar sep l with
  | nil => exact absurd h (splitOnChar_ne_nil sep l)
  | cons a t => simp

theorem splitOnChar_of_not_mem {sep : Char} {l : List Char} (h : sep ∉ l) :
    splitOnChar sep l = [l] := by
  induction l with
  | nil => rfl
  | cons c rest ih =>
    have hc : c ≠ sep := fun hc => h (hc ▸ List.mem_cons_self c rest)
    have hrest : sep ∉ rest := fun hm => h (List.mem_cons_of_mem c hm)
    rw [splitOnChar_cons, ih hrest]
    simp [hc]

theorem splitOnChar_append (sep : Char) (xs ys : List Char) :
    splitOnChar sep (xs ++ sep :: ys) = splitOnChar sep xs ++ splitOnChar sep ys := by
  induction xs with
  | nil => rw [List.nil_append, splitOnChar_cons_sep]; rfl
  | cons c rest ih =>
    show splitOnChar sep (c :: (rest ++ sep :: ys)) = _
    rw [splitOnChar_cons, ih, splitOnChar_cons]
    cases h : splitOnChar sep rest with
    | nil => exact absurd h (splitOnChar_ne_nil sep rest)
    | cons a t =>
      cases hy : splitOnChar sep ys with
      | nil => exact absurd hy (splitOnChar_ne_nil sep ys)
      | cons b u => by_cases hc : c = sep <;> simp [hc]

theorem mapMOpt_mem_of_some {f : α → Option β} {l : List α} {ys : List β}
    (h : mapMOpt f l = some ys) {y : β} (hy : y ∈ ys) : ∃ x ∈ l, f x = some y := by
  induction l generalizing ys with
  | nil =>
    simp only [mapMOpt] at h
    cases h
    cases hy
  | cons a t ih =>
    simp only [mapMOpt] at h
    cases hfa : f a with
    | none => rw [hfa] at h; cases h
    | some b =>
      rw [hfa] at h
      cases hmt : mapMOpt f t with
      | none => rw [hmt] at h; cases h
      | some bs =>
        rw [hmt] at h
        simp only [Option.some_bind, Option.map_some'] at h
        cases h
        rcases List.mem_cons.mp hy with hyb | hyt
        · exact ⟨a, List.mem_cons_self a t, hyb ▸ hfa⟩
        · obtain ⟨x, hx, hfx⟩ := ih hmt hyt
          exact ⟨x, List.mem_cons_of_mem a hx, hfx⟩

theorem mapMOpt_none_of_mem {f : α → Option β} {l : List α} {x : α}
    (hx : x ∈ l) (hfx : f x = none) : mapMOpt f l = none := by
  induction l with
  | nil => cases hx
  | cons a t ih =>
    rcases List.mem_cons.mp hx with rfl | hxt
    · simp [mapMOpt, hfx]
    · simp only [mapMOpt]
      cases hfa : f a with
      | none => rfl
      | some b => simp [ih hxt]

/-! ### Lemmas about the range validation -/

theorem validateRange_none_of {size : Int} {p : Int × Int}
    (h : p.1 < 0 ∨ size ≤ p.1 ∨ p.2 < p.1 ∨ size ≤ p.2) : validateRange size p = none := by
  unfold validateRange
  exact if_pos h

theorem validateRange_some {size : Int} {p : Int × Int} {r : byteRange}
    (h : validateRange size p = some r) :
    r.start = p.1 ∧ r.stop = p.2 ∧ 0 ≤ p.1 ∧ p.1 < size ∧ p.1 ≤ p.2 ∧ p.2 < size := by
  unfold validateRange at h
  split at h
  · cases h
  · rename_i hg
    cases h
    push_neg at hg
    exact ⟨rfl, rfl, hg.1, hg.2.1, hg.2.2.1, hg.2.2.2⟩

theorem parseSpec_some {spec : List Char} {size : Int} {r : byteRange}
    (h : parseSpec spec size = some r) :
    0 ≤ r.start ∧ r.start < size ∧ r.start ≤ r.stop ∧ r.stop < size := by
  unfold parseSpec at h
  cases hc : computeSpec spec size with
  | none => rw [hc] at h; cases h
  | some p =>
    rw [hc] at h
    rw [Option.some_bind] at h
    obtain ⟨h1, h2, h3, h4, h5, h6⟩ := validateRange_some h
    omega

theorem parseSpec_none_of_nonpos (spec : List Char) {size : Int} (hs : size ≤ 0) :
    parseSpec spec size = none := by
  unfold parseSpec
  cases hc : computeSpec spec size with
  | none => rfl
  | some p =>
    rw [Option.some_bind]
    exact validateRange_none_of (by omega)

theorem parseRange_mem_of_some {s : List Char} {size : Int} {rs : List byteRange}
    (h : parseRange s size = some rs) {r : byteRange} (hr : r ∈ rs) :
    0 ≤ r.start ∧ r.start < size ∧ r.start ≤ r.stop ∧ r.stop < size := by
  unfold parseRange at h
  split at h
  · obtain ⟨spec, _, hspec⟩ := mapMOpt_mem_of_some h hr
    exact parseSpec_some hspec
  · cases h

theorem parseRange_zero_size (s : List Char) : parseRange s 0 = none := by
  unfold parseRange
  split
  · cases hsp : splitOnChar ',' (s.drop 6) with
    | nil => exact absurd hsp (splitOnChar_ne_nil _ _)
    | cons a t =>
      exact mapMOpt_none_of_mem (List.mem_cons_self a t)
        (parseSpec_none_of_nonpos a le_rfl)
  · rfl

/-- Claim C1: the path-containment check is claimed to accept a resolved
candidate only when it equals the root or extends it past a separator, and
to reject a sibling such as /root2 under root /root. The code's check
(`strings.HasPrefix`) accepts the sibling /root2, while the check the spec
demands rejects it; the third conjunct shows the sibling candidate is what
`filepath.Join(root, "../root2")` resolves to. This evidences the code bug
the spec calls out: a raw prefix test admits sibling-directory escapes. -/
theorem containsCheck_sibling_accepted :
    rawContainsCheck "/root".data "/root2".data = true ∧
    specContainsCheck "/root".data "/root2".data = false ∧
    goJoin "/root".data "../root2".data = "/root2".data := by decide

/-- Claim C3: parseRange validates each computed (start, end) pair against
`0 ≤ start`, `start < size`, `start ≤ end`, `end < size`; every range in a
successful result satisfies all four, and one violating spec fails the whole
request even when other specs in the list are valid. -/
theorem parseRange_allOrNothing (s : List Char) (size : Int) :
    (∀ rs, parseRange s size = some rs →
      ∀ r ∈ rs, 0 ≤ r.start ∧ r.start < size ∧ r.start ≤ r.stop ∧ r.stop < size) ∧
    (∀ spec ∈ splitOnChar ',' (s.drop 6), ∀ a b : Int,
      computeSpec spec size = some (a, b) →
      (a < 0 ∨ size ≤ a ∨ b < a ∨ size ≤ b) → parseRange s size = none) := by
  constructor
  · intro rs h r hr
    exact parseRange_mem_of_some h hr
  · intro spec hspec a b hab hviol
    have hnone : parseSpec spec size = none := by
      unfold parseSpec
      rw [hab, Option.some_bind]
      exact validateRange_none_of hviol
    unfold parseRange
    split
    · exact mapMOpt_none_of_mem hspec hnone
    · rfl

/-- Witness for C3: in `bytes=0-4,10-20` against size 10 the second spec
computes (10, 20), violating `start < size`, so the whole request errors
even though `0-4` alone is valid. -/
theorem parseRange_allOrNothing_witness : parseRange "bytes=0-4,10-20".data 10 = none :=
  (parseRange_allOrNothing "bytes=0-4,10-20".data 10).2 "10-20".data (by decide)
    10 20 (by decide) (by decide)

theorem parseSpec_suffix_zero (size : Int) : parseSpec ['-', '0'] size = none := by
  have h : parseSpec ['-', '0'] size
      = validateRange size ((if size - (0 : Int) < 0 then 0 else size - 0), size - 1) := rfl
  rw [h]
  by_cases hs : size - (0 : Int) < 0
  · rw [if_pos hs]
    exact validateRange_none_of (by omega)
  · rw [if_neg hs]
    exact validateRange_none_of (by omega)

theorem parseRange_suffix_zero (size : Int) : parseRange "bytes=-0".data size = none := by
  have h : parseRange "bytes=-0".data size
      = (parseSpec ['-', '0'] size).bind fun b =>
          (mapMOpt (fun sp => parseSpec sp size) []).map fun bs => b :: bs := rfl
  rw [h, parseSpec_suffix_zero]
  rfl

theorem downloadResponse_416 (fn ct disp : String) (content : List Nat) (isHead : Bool)
    (hdr : List Char) (hne : hdr ≠ [])
    (hp : ∀ rs, parseRange hdr (content.length : Int) = some rs → rs.length ≠ 1) :
    (downloadResponse fn ct disp content isHead hdr).status = 416 ∧
    (downloadResponse fn ct disp content isHead hdr).header "Content-Range"
      = some ("bytes */" ++ toString (content.length : Int)) ∧
    (downloadResponse fn ct disp content isHead hdr).body = strBytes "Invalid range\x0a" := by
  simp only [downloadResponse]
  rw [if_neg hne]
  cases hpr : parseRange hdr (content.length : Int) with
  | none => exact ⟨rfl, rfl, rfl⟩
  | some rs =>
    match rs with
    | [] => exact ⟨rfl, rfl, rfl⟩
    | [r] => exact absurd rfl (hp [r] hpr)
    | r1 :: r2 :: rest => exact ⟨rfl, rfl, rfl⟩

/-- Claim C10: on a resource of size 0 every Range header fails to parse;
the suffix spec `bytes=-0` fails for every resource size; and any Range
request against an empty file yields a 416 with `Content-Range: bytes */0`. -/
theorem emptyResource_unsatisfiable :
    (∀ s : List Char, parseRange s 0 = none) ∧
    (∀ size : Int, parseRange "bytes=-0".data size = none) ∧
    (∀ (fn ct disp : String) (isHead : Bool) (hdr : List Char), hdr ≠ [] →
      (downloadResponse fn ct disp [] isHead hdr).status = 416 ∧
      (downloadResponse fn ct disp [] isHead hdr).header "Content-Range"
        = some "bytes */0") := by
  refine ⟨parseRange_zero_size, parseRange_suffix_zero, ?_⟩
  intro fn ct disp isHead hdr hne
  have h0 : parseRange hdr ((([] : List Nat).length : Nat) : Int) = none :=
    parseRange_zero_size hdr
  have hp : ∀ rs, parseRange hdr ((([] : List Nat).length : Nat) : Int) = some rs →
      rs.length ≠ 1 := by
    intro rs h
    rw [h0] at h
    cases h
  obtain ⟨h1, h2, h3⟩ := downloadResponse_416 fn ct disp [] isHead hdr hne hp
  refine ⟨h1, ?_⟩
  rw [h2]
  rfl

/-- Witness for C10: a concrete Range request against an empty file is
answered 416. -/
theorem emptyResource_unsatisfiable_witness :
    (downloadResponse "f" "t" "attachment" [] false "bytes=0-0".data).status = 416 :=
  (emptyResource_unsatisfiable.2.2 "f" "t" "attachment" false "bytes=0-0".data
    (by decide)).1

/-- Claim C6: a GET download without a Range header answers 200 with
`Accept-Ranges: bytes`, `Content-Length` equal to the file size and the full
content as body; the HEAD response has the same status and headers and an
empty body. -/
theorem download_full_content (fn ct disp : String) (content : List Nat) :
    (downloadResponse fn ct disp content false []).status = 200 ∧
    (downloadResponse fn ct disp content false []).header "Accept-Ranges" = some "bytes" ∧
    (downloadResponse fn ct disp content false []).header "Content-Length"
      = some (toString (content.length : Int)) ∧
    (downloadResponse fn ct disp content false []).body = content ∧
    (downloadResponse fn ct disp content true []).status = 200 ∧
    (downloadResponse fn ct disp content true []).header
      = (downloadResponse fn ct disp content false []).header ∧
    (downloadResponse fn ct disp content true []).body = [] :=
  ⟨rfl, rfl, rfl, rfl, rfl, rfl, rfl⟩

/-- Counterexample for C5: the claim asserts an empty 416 body, but the code
reaches the 416 through `http.Error(w, "Invalid range", ...)`, which writes
the message and a newline as the body: on a GET for a 3-byte file with the
unparseable header `bytes=abc` the response body is nonempty. -/
theorem range416_body_not_empty :
    (downloadResponse "f" "t" "attachment" [7, 8, 9] false "bytes=abc".data).status = 416 ∧
    (downloadResponse "f" "t" "attachment" [7, 8, 9] false "bytes=abc".data).header
      "Content-Range" = some "bytes */3" ∧
    (downloadResponse "f" "t" "attachment" [7, 8, 9] false "bytes=abc".data).body ≠ [] := by
  refine ⟨rfl, rfl, ?_⟩
  decide

/-- Claim C5 (amended): when the Range header is present but unparseable, or
parses to a number of ranges other than one, the response has status 416 and
header `Content-Range: bytes */S`; its body is not empty but the plain-text
message `Invalid range` plus a newline, written by `http.Error` (the
transport layer discards the handler-written body on the wire for HEAD). -/
theorem download_range_unsatisfiable (fn ct disp : String) (content : List Nat)
    (isHead : Bool) (hdr : List Char) (hne : hdr ≠ [])
    (hp : ∀ rs, parseRange hdr (content.length : Int) = some rs → rs.length ≠ 1) :
    (downloadResponse fn ct disp content isHead hdr).status = 416 ∧
    (downloadResponse fn ct disp content isHead hdr).header "Content-Range"
      = some ("bytes */" ++ toString (content.length : Int)) ∧
    (downloadResponse fn ct disp content isHead hdr).body = strBytes "Invalid range\x0a" :=
  downloadResponse_416 fn ct disp content isHead hdr hne hp

/-- Witness for C5 (amended): a two-range request on a 3-byte file parses to
two ranges, hence 416 with the `bytes */3` Content-Range. -/
theorem download_range_unsatisfiable_witness :
    (downloadResponse "g" "t" "attachment" [1, 2, 3] false "bytes=0-1,2-2".data).status
      = 416 :=
  (download_range_unsatisfiable "g" "t" "attachment" [1, 2, 3] false "bytes=0-1,2-2".data
    (by decide)
    (by
      intro rs h
      rw [show parseRange "bytes=0-1,2-2".data ((([1, 2, 3] : List Nat).length : Nat) : Int)
          = some [⟨0, 1⟩, ⟨2, 2⟩] from by decide] at h
      have hrs := Option.some.inj h
      rw [← hrs]
      decide)).1

theorem downloadResponse_206_eq (fn ct disp : String) (content : List Nat)
    (isHead : Bool) (hdr : List Char) (r : byteRange) (hne : hdr ≠ [])
    (hp : parseRange hdr (content.length : Int) = some [r]) :
    downloadResponse fn ct disp content isHead hdr =
      { status := 206
        header := hdrSet (hdrSet (hdrSet (hdrSet (hdrSet hdrEmpty "Content-Disposition"
            (disp ++ "; filename=\x22" ++ fn ++ "\x22")) "Accept-Ranges" "bytes")
            "Content-Type" ct) "Content-Range"
            ("bytes " ++ toString r.start ++ "-" ++ toString r.stop ++ "/"
              ++ toString (content.length : Int)))
            "Content-Length" (toString (r.stop - r.start + 1))
        body := if isHead then []
          else (content.drop r.start.toNat).take (r.stop - r.start + 1).toNat } := by
  simp only [downloadResponse]
  rw [if_neg hne, hp]

/-- Claim C2: when the Range header parses to exactly one range
(start, stop), a GET answers 206 with `Content-Range: bytes start-stop/S`,
`Content-Length = stop - start + 1`, and a body of exactly
`stop - start + 1` bytes equal to the file bytes from `start` through
`stop` inclusive; the HEAD response has the same status and headers and an
empty body. -/
theorem download_single_range (fn ct disp : String) (content : List Nat)
    (hdr : List Char) (start stop : Int)
    (hp : parseRange hdr (content.length : Int) = some [⟨start, stop⟩]) :
    (downloadResponse fn ct disp content false hdr).status = 206 ∧
    (downloadResponse fn ct disp content false hdr).header "Content-Range"
      = some ("bytes " ++ toString start ++ "-" ++ toString stop ++ "/"
          ++ toString (content.length : Int)) ∧
    (downloadResponse fn ct disp content false hdr).header "Content-Length"
      = some (toString (stop - start + 1)) ∧
    (((downloadResponse fn ct disp content false hdr).body.length : Nat) : Int)
      = stop - start + 1 ∧
    (∀ i : Nat, i < (downloadResponse fn ct disp content false hdr).body.length →
      (downloadResponse fn ct disp content false hdr).body[i]?
        = content[start.toNat + i]?) ∧
    (downloadResponse fn ct disp content true hdr).status = 206 ∧
    (downloadResponse fn ct disp content true hdr).header
      = (downloadResponse fn ct disp content false hdr).header ∧
    (downloadResponse fn ct disp content true hdr).body = [] := by
  have hne : hdr ≠ [] := by
    intro h
    subst h
    rw [show parseRange [] ((content.length : Nat) : Int) = none from rfl] at hp
    cases hp
  have hall := parseRange_mem_of_some hp (List.mem_singleton.mpr rfl)
  have hs0 : (0 : Int) ≤ start := hall.1
  have hsS : start < (content.length : Int) := hall.2.1
  have hse : start ≤ stop := hall.2.2.1
  have heS : stop < (content.length : Int) := hall.2.2.2
  have hG := downloadResponse_206_eq fn ct disp content false hdr ⟨start, stop⟩ hne hp
  have hH := downloadResponse_206_eq fn ct disp content true hdr ⟨start, stop⟩ hne hp
  rw [hG, hH]
  refine ⟨rfl, rfl, rfl, ?_, ?_, rfl, rfl, rfl⟩
  · show ((((content.drop start.toNat).take (stop - start + 1).toNat).length : Nat) : Int)
      = stop - start + 1
    rw [List.length_take, List.length_drop]
    omega
  · intro i hi
    replace hi : i < ((content.drop start.toNat).take (stop - start + 1).toNat).length := hi
    rw [List.length_take, List.length_drop] at hi
    show ((content.drop start.toNat).take (stop - start + 1).toNat)[i]?
      = content[start.toNat + i]?
    rw [List.getElem?_take_of_lt (by omega : i < (stop - start + 1).toNat),
      List.getElem?_drop]

/-- Witness for C2: `bytes=1-3` on a 5-byte file serves exactly bytes 1..3. -/
theorem download_single_range_witness :
    (((downloadResponse "f" "t" "attachment" [10, 20, 30, 40, 50] false
        "bytes=1-3".data).body.length : Nat) : Int) = 3 - 1 + 1 :=
  (download_single_range "f" "t" "attachment" [10, 20, 30, 40, 50]
    "bytes=1-3".data 1 3 (by decide)).2.2.2.1

theorem listFiles_nil (p : List Char) : listFiles p [] = [] := rfl

theorem listFiles_cons (p : List Char) (e : DirEntry) (rest : List DirEntry) :
    listFiles p (e :: rest) =
      match e.info with
      | none => listFiles p rest
      | some i => mkFileEntry p e i :: listFiles p rest := rfl

/-- Claim C9: the listing loop skips an entry whose metadata read fails
without affecting the rest — dropping an unreadable entry anywhere leaves
the listing of the remaining entries unchanged, every readable entry
appears in the result, and an empty directory lists as the empty sequence. -/
theorem listing_best_effort (p : List Char) :
    listFiles p [] = [] ∧
    (∀ (xs ys : List DirEntry) (e : DirEntry), e.info = none →
      listFiles p (xs ++ e :: ys) = listFiles p (xs ++ ys)) ∧
    (∀ (entries : List DirEntry) (e : DirEntry) (i : EntryInfo),
      e ∈ entries → e.info = some i → mkFileEntry p e i ∈ listFiles p entries) := by
  refine ⟨rfl, ?_, ?_⟩
  · intro xs ys e he
    induction xs with
    | nil =>
      show listFiles p (e :: ys) = listFiles p ys
      rw [listFiles_cons, he]
    | cons a t ih =>
      show listFiles p (a :: (t ++ e :: ys)) = listFiles p (a :: (t ++ ys))
      rw [listFiles_cons, listFiles_cons, ih]
  · intro entries e i he hi
    induction entries with
    | nil => cases he
    | cons a t ih =>
      rcases List.mem_cons.mp he with rfl | het
      · rw [listFiles_cons, hi]
        exact List.mem_cons_self _ _
      · rw [listFiles_cons]
        cases a.info with
        | none => exact ih het
        | some ia => exact List.mem_cons_of_mem _ (ih het)

/-- Witness for C9: a directory with one readable and one unreadable entry
lists exactly the readable one. -/
theorem listing_best_effort_witness :
    listFiles [] [⟨"a".data, false, some ⟨3, 5⟩⟩, ⟨"b".data, true, none⟩]
      = listFiles [] [⟨"a".data, false, some ⟨3, 5⟩⟩] :=
  (listing_best_effort []).2.1 [⟨"a".data, false, some ⟨3, 5⟩⟩] []
    ⟨"b".data, true, none⟩ rfl

/-! ### Decimal digits: facts needed for the suffix-range claim -/

/-- A decimal digit character, together with the disequalities the range
grammar needs. -/
def digitish (c : Char) : Prop :=
  c.isDigit = true ∧ c ≠ '+' ∧ c ≠ '-' ∧ c ≠ ',' ∧ goIsSpace c = false

instance (c : Char) : Decidable (digitish c) := by
  unfold digitish; infer_instance

theorem digitChar_facts {d : Nat} (hd : d < 10) :
    digitish (Char.ofNat (48 + d)) ∧ (Char.ofNat (48 + d)).toNat = 48 + d := by
  interval_cases d <;> exact ⟨by decide, by decide⟩

theorem natToDigitsAux_eq (n : Nat) (acc : List Char) :
    natToDigitsAux n acc =
      if n = 0 then acc
      else natToDigitsAux (n / 10) (Char.ofNat (48 + n % 10) :: acc) := by
  rw [natToDigitsAux]
  exact dite_eq_ite

theorem natToDigitsAux_zero (acc : List Char) : natToDigitsAux 0 acc = acc := by
  rw [natToDigitsAux_eq]
  simp

theorem natToDigitsAux_append (n : Nat) : ∀ acc : List Char,
    natToDigitsAux n acc = natToDigitsAux n [] ++ acc := by
  induction n using Nat.strong_induction_on with
  | _ n ih =>
    intro acc
    by_cases h : n = 0
    · subst h
      rw [natToDigitsAux_zero, natToDigitsAux_zero, List.nil_append]
    · have hlt : n / 10 < n := Nat.div_lt_self (Nat.pos_of_ne_zero h) (by omega)
      calc natToDigitsAux n acc
          = natToDigitsAux (n / 10) (Char.ofNat (48 + n % 10) :: acc) := by
            rw [natToDigitsAux_eq, if_neg h]
        _ = natToDigitsAux (n / 10) [] ++ Char.ofNat (48 + n % 10) :: acc :=
            ih (n / 10) hlt _
        _ = (natToDigitsAux (n / 10) [] ++ [Char.ofNat (48 + n % 10)]) ++ acc := by
            simp
        _ = natToDigitsAux (n / 10) [Char.ofNat (48 + n % 10)] ++ acc := by
            rw [← ih (n / 10) hlt [Char.ofNat (48 + n % 10)]]
        _ = natToDigitsAux n [] ++ acc := by
            rw [show natToDigitsAux n []
                = natToDigitsAux (n / 10) [Char.ofNat (48 + n % 10)] from by
              rw [natToDigitsAux_eq, if_neg h]]

theorem digitsVal_cons (acc : Nat) (c : Char) (rest : List Char) :
    digitsVal acc (c :: rest) =
      if c.isDigit then digitsVal (10 * acc + (c.toNat - 48)) rest else none := rfl

theorem digitsVal_append (l1 : List Char) : ∀ (acc : Nat) (l2 : List Char),
    digitsVal acc (l1 ++ l2) = (digitsVal acc l1).bind fun m => digitsVal m l2 := by
  induction l1 with
  | nil => intro acc l2; rfl
  | cons c r ih =>
    intro acc l2
    rw [List.cons_append, digitsVal_cons, digitsVal_cons]
    by_cases hc : c.isDigit
    · rw [if_pos hc, if_pos hc, ih]
    · rw [if_neg hc, if_neg hc]
      rfl

theorem natToDigits_spec (n : Nat) (hn : n ≠ 0) :
    digitsVal 0 (natToDigitsAux n []) = some n ∧
    (∀ c ∈ natToDigitsAux n [], digitish c) ∧
    natToDigitsAux n [] ≠ [] := by
  induction n using Nat.strong_induction_on with
  | _ n ih =>
    have hd10 : n % 10 < 10 := Nat.mod_lt n (by omega)
    obtain ⟨hdig, htn⟩ := digitChar_facts hd10
    have hstep : natToDigitsAux n []
        = natToDigitsAux (n / 10) [] ++ [Char.ofNat (48 + n % 10)] := by
      rw [natToDigitsAux_eq, if_neg hn, natToDigitsAux_append]
    by_cases h10 : n / 10 = 0
    · have haux0 : natToDigitsAux (n / 10) [] = [] := by
        rw [h10, natToDigitsAux_zero]
      rw [hstep, haux0, List.nil_append]
      refine ⟨?_, ?_, by simp⟩
      · rw [show [Char.ofNat (48 + n % 10)] = Char.ofNat (48 + n % 10) :: [] from rfl,
          digitsVal_cons, if_pos hdig.1, htn]
        show some (10 * 0 + (48 + n % 10 - 48)) = some n
        simp only [Option.some.injEq]
        have := Nat.div_add_mod n 10
        omega
      · intro c hc
        rcases List.mem_singleton.mp hc with rfl
        exact hdig
    · have hlt : n / 10 < n := Nat.div_lt_self (Nat.pos_of_ne_zero hn) (by omega)
      obtain ⟨ihv, ihd, ihne⟩ := ih (n / 10) hlt h10
      rw [hstep]
      refine ⟨?_, ?_, by simp⟩
      · rw [digitsVal_append, ihv, Option.some_bind,
          show [Char.ofNat (48 + n % 10)] = Char.ofNat (48 + n % 10) :: [] from rfl,
          digitsVal_cons, if_pos hdig.1, htn]
        show some (10 * (n / 10) + (48 + n % 10 - 48)) = some n
        simp only [Option.some.injEq]
        have := Nat.div_add_mod n 10
        omega
      · intro c hc
        rcases List.mem_append.mp hc with hc1 | hc2
        · exact ihd c hc1
        · rcases List.mem_singleton.mp hc2 with rfl
          exact hdig

theorem digitChar_eq {d : Nat} (hd : d < 10) : Nat.digitChar d = Char.ofNat (48 + d) := by
  interval_cases d <;> decide

theorem toDigitsCore_eq_natToDigitsAux :
    ∀ (fuel n : Nat) (acc : List Char), n ≠ 0 → n < fuel →
      Nat.toDigitsCore 10 fuel n acc = natToDigitsAux n acc := by
  intro fuel
  induction fuel with
  | zero => intro n acc hn hlt; omega
  | succ f ihf =>
    intro n acc hn hlt
    show Nat.toDigitsCore 10 (f + 1) n acc = _
    simp only [Nat.toDigitsCore]
    rw [digitChar_eq (Nat.mod_lt n (by omega))]
    by_cases h10 : n / 10 = 0
    · rw [if_pos h10, natToDigitsAux_eq, if_neg hn, h10, natToDigitsAux_zero]
    · rw [if_neg h10, natToDigitsAux_eq, if_neg hn]
      exact ihf (n / 10) _ h10 (by omega)

theorem repr_data (n : Nat) (hn : n ≠ 0) : (Nat.repr n).data = natToDigitsAux n [] := by
  show (Nat.toDigits 10 n).asString.data = _
  unfold Nat.toDigits
  rw [toDigitsCore_eq_natToDigitsAux (n + 1) n [] hn (by omega)]
  rfl

theorem dropWhile_eq_self_of_all {p : Char → Bool} {l : List Char}
    (h : ∀ c ∈ l, p c = false) : l.dropWhile p = l := by
  cases l with
  | nil => rfl
  | cons a t => simp [List.dropWhile_cons, h a (List.mem_cons_self a t)]

theorem goTrim_eq_self {l : List Char} (h : ∀ c ∈ l, goIsSpace c = false) : goTrim l = l := by
  unfold goTrim
  rw [dropWhile_eq_self_of_all h,
    dropWhile_eq_self_of_all (fun c hc => h c (List.mem_reverse.mp hc)),
    List.reverse_reverse]

theorem goParseInt_cons (c : Char) (rest : List Char) :
    goParseInt (c :: rest) =
      if c = '+' then
        (parseDigs rest).bind fun n => if n ≤ int64Max then some (Int.ofNat n) else none
      else if c = '-' then
        (parseDigs rest).bind fun n => if n ≤ 2 ^ 63 then some (-(Int.ofNat n)) else none
      else
        (parseDigs (c :: rest)).bind fun n =>
          if n ≤ int64Max then some (Int.ofNat n) else none := rfl

theorem goParseInt_digits {l : List Char} {m : Nat} (hne : l ≠ [])
    (hd : ∀ c ∈ l, digitish c) (hv : digitsVal 0 l = some m) (hm : m ≤ int64Max) :
    goParseInt l = some (Int.ofNat m) := by
  cases l with
  | nil => exact absurd rfl hne
  | cons c rest =>
    have hc := hd c (List.mem_cons_self c rest)
    rw [goParseInt_cons, if_neg hc.2.1, if_neg hc.2.2.1]
    unfold parseDigs
    rw [if_neg (List.cons_ne_nil c rest), hv, Option.some_bind, if_pos hm]

/-- Counterexample for C4: the claim quantifies over every N ≥ 1, but
`strconv.ParseInt` rejects values outside int64, so for N = 2^63 the spec
`bytes=-N` is a parse error rather than the range (max(0, S-N), S-1). -/
theorem parseRange_suffix_overflow :
    parseRange ("bytes=-" ++ Nat.repr (2 ^ 63)).data 1 = none ∧
    Nat.repr (2 ^ 63) = "9223372036854775808" := by
  constructor <;> decide

/-- Claim C4 (amended): for every resource size S ≥ 1 and every N with
1 ≤ N ≤ 2^63 - 1 (the int64 bound strconv.ParseInt enforces), parsing
`bytes=-N` yields the single range (max(0, S-N), S-1); hence `bytes=-500`
gives (S-500, S-1) when S ≥ 500 and (0, S-1) on a smaller resource. -/
theorem parseRange_suffix_range (N : Nat) (S : Int)
    (hN1 : 1 ≤ N) (hNmax : N ≤ int64Max) (hS : 1 ≤ S) :
    parseRange ("bytes=-" ++ Nat.repr N).data S
      = some [⟨max 0 (S - (N : Int)), S - 1⟩] := by
  have hn0 : N ≠ 0 := by omega
  obtain ⟨hval, hdig, hne⟩ := natToDigits_spec N hn0
  have hdata : ("bytes=-" ++ Nat.repr N).data
      = "bytes=".data ++ '-' :: natToDigitsAux N [] := by
    rw [String.data_append, repr_data N hn0,
      show "bytes=-".data = "bytes=".data ++ ['-'] from rfl]
    simp
  have hpre : ("bytes=".data.isPrefixOf
      ("bytes=".data ++ '-' :: natToDigitsAux N [])) = true :=
    List.isPrefixOf_iff_prefix.mpr (List.prefix_append _ _)
  have hnocomma : ',' ∉ '-' :: natToDigitsAux N [] := by
    intro hmem
    rcases List.mem_cons.mp hmem with h1 | h2
    · exact absurd h1 (by decide)
    · exact absurd rfl (hdig ',' h2).2.2.2.1
  have hnodash : '-' ∉ natToDigitsAux N [] := by
    intro hmem
    exact absurd rfl (hdig '-' hmem).2.2.1
  have hsplit : splitOnChar '-' ('-' :: natToDigitsAux N [])
      = [[], natToDigitsAux N []] := by
    rw [splitOnChar_cons_sep, splitOnChar_of_not_mem hnodash]
  have htrim : goTrim ('-' :: natToDigitsAux N []) = '-' :: natToDigitsAux N [] := by
    apply goTrim_eq_self
    intro c hc
    rcases List.mem_cons.mp hc with rfl | h2
    · decide
    · exact (hdig c h2).2.2.2.2
  have hparse : goParseInt (natToDigitsAux N []) = some (Int.ofNat N) :=
    goParseInt_digits hne hdig hval hNmax
  have hcomp : computeSpec ('-' :: natToDigitsAux N []) S
      = some ((if S - (N : Int) < 0 then 0 else S - (N : Int)), S - 1) := by
    simp only [computeSpec]
    rw [htrim, hsplit]
    show (goParseInt (natToDigitsAux N [])).map _ = _
    rw [hparse]
    rfl
  have hspec : parseSpec ('-' :: natToDigitsAux N []) S
      = validateRange S ((if S - (N : Int) < 0 then 0 else S - (N : Int)), S - 1) := by
    unfold parseSpec
    rw [hcomp, Option.some_bind]
  have hvalid : validateRange S ((if S - (N : Int) < 0 then 0 else S - (N : Int)), S - 1)
      = some ⟨max 0 (S - (N : Int)), S - 1⟩ := by
    have hN' : (1 : Int) ≤ (N : Int) := by exact_mod_cast hN1
    by_cases hneg : S - (N : Int) < 0
    · rw [if_pos hneg, max_eq_left (by omega : S - (N : Int) ≤ 0)]
      unfold validateRange
      dsimp only
      rw [if_neg (by omega :
        ¬((0 : Int) < 0 ∨ S ≤ (0 : Int) ∨ S - 1 < (0 : Int) ∨ S ≤ S - 1))]
    · rw [if_neg hneg, max_eq_right (by omega : (0 : Int) ≤ S - (N : Int))]
      unfold validateRange
      dsimp only
      rw [if_neg (by omega :
        ¬(S - (N : Int) < 0 ∨ S ≤ S - (N : Int) ∨ S - 1 < S - (N : Int) ∨ S ≤ S - 1))]
  rw [hdata]
  unfold parseRange
  rw [if_pos hpre, List.drop_left' (by rfl : ("bytes=".data).length = 6),
    splitOnChar_of_not_mem hnocomma]
  show (parseSpec ('-' :: natToDigitsAux N []) S).bind _ = _
  rw [hspec, hvalid]
  rfl

/-- Witness for C4 (amended): `bytes=-500` on a 300-byte resource yields the
range (0, 299). -/
theorem parseRange_suffix_range_witness :
    parseRange ("bytes=-" ++ Nat.repr 500).data 300
      = some [⟨max 0 ((300 : Int) - (500 : Nat)), 300 - 1⟩] :=
  parseRange_suffix_range 500 300 (by decide) (by decide) (by decide)

theorem uploadResponse_ok_eq (wd : List Char) (dirs : List (List Char)) (req : UploadReq)
    (hwf : req.wellFormedMultipart = true)
    (hdir : req.directory = [])
    (hdst : goJoin wd (goBase req.filename) ∉ dirs) :
    uploadResponse wd dirs req
      = { status := 303, written := some (goJoin wd (goBase req.filename), req.fileContent) } := by
  unfold uploadResponse parseMultipartFormOk
  rw [hwf, if_neg (by decide : ¬(true = false)), if_pos hdir]
  show (if goJoin wd (goBase req.filename) ∈ dirs then
      ({ status := 500, written := none } : UploadOutcome)
    else { status := 303,
           written := some (goJoin wd (goBase req.filename), req.fileContent) })
    = _
  rw [if_neg hdst]

/-- Counterexample for C7: an upload whose total body size exceeds 100 MiB is
not rejected — `ParseMultipartForm(100 << 20)` only caps in-memory buffering —
so the handler writes the whole file and redirects (303), with no client
error and a full (not absent) write. -/
theorem upload_oversize_accepted :
    totalBodySize ⟨"big.bin".data, List.replicate (100 * 1024 * 1024) 0, [], 200, true⟩
      > maxMultipartMemory ∧
    (uploadResponse "/srv/files".data ["/srv".data, "/srv/files".data]
      ⟨"big.bin".data, List.replicate (100 * 1024 * 1024) 0, [], 200, true⟩).status = 303 ∧
    (uploadResponse "/srv/files".data ["/srv".data, "/srv/files".data]
      ⟨"big.bin".data, List.replicate (100 * 1024 * 1024) 0, [], 200, true⟩).written
      = some ("/srv/files/big.bin".data, List.replicate (100 * 1024 * 1024) 0) := by
  have he := uploadResponse_ok_eq "/srv/files".data ["/srv".data, "/srv/files".data]
    ⟨"big.bin".data, List.replicate (100 * 1024 * 1024) 0, [], 200, true⟩
    rfl rfl (by decide)
  have hj : goJoin "/srv/files".data
      (goBase ("big.bin".data : List Char)) = "/srv/files/big.bin".data := by decide
  refine ⟨?_, ?_, ?_⟩
  · rw [totalBodySize,
      show (⟨"big.bin".data, List.replicate (100 * 1024 * 1024) 0, [], 200, true⟩
          : UploadReq).fileContent = List.replicate (100 * 1024 * 1024) 0 from rfl,
      List.length_replicate,
      show (⟨"big.bin".data, List.replicate (100 * 1024 * 1024) 0, [], 200, true⟩
          : UploadReq).overheadBytes = 200 from rfl]
    norm_num [maxMultipartMemory]
  · rw [he]
  · rw [he]
    show some (goJoin "/srv/files".data (goBase ("big.bin".data : List Char)),
        List.replicate (100 * 1024 * 1024) (0 : Nat)) = _
    rw [hj]

/-- Claim C7 (amended): the 100 MiB constant is only the in-memory threshold
passed to ParseMultipartForm, not a request-size cap: a well-formed upload
whose total body size exceeds 100 MiB still succeeds — status 303 and the
full file content written — rather than failing with a client error. -/
theorem upload_no_size_cap (wd : List Char) (dirs : List (List Char)) (req : UploadReq)
    (hwf : req.wellFormedMultipart = true)
    (hdir : req.directory = [])
    (hdst : goJoin wd (goBase req.filename) ∉ dirs)
    (hbig : totalBodySize req > maxMultipartMemory) :
    (uploadResponse wd dirs req).status = 303 ∧
    (uploadResponse wd dirs req).written
      = some (goJoin wd (goBase req.filename), req.fileContent) := by
  rw [uploadResponse_ok_eq wd dirs req hwf hdir hdst]
  exact ⟨rfl, rfl⟩

/-- Witness for C7 (amended): a 100 MiB + 1 byte body is accepted and fully
written. -/
theorem upload_no_size_cap_witness :
    (uploadResponse "/data".data ["/".data, "/data".data]
      ⟨"x.bin".data, List.replicate (100 * 1024 * 1024) 1, [], 1, true⟩).status = 303 :=
  (upload_no_size_cap "/data".data ["/".data, "/data".data]
    ⟨"x.bin".data, List.replicate (100 * 1024 * 1024) 1, [], 1, true⟩
    rfl rfl (by decide)
    (by
      rw [totalBodySize,
        show (⟨"x.bin".data, List.replicate (100 * 1024 * 1024) 1, [], 1, true⟩
            : UploadReq).fileContent = List.replicate (100 * 1024 * 1024) 1 from rfl,
        List.length_replicate,
        show (⟨"x.bin".data, List.replicate (100 * 1024 * 1024) 1, [], 1, true⟩
            : UploadReq).overheadBytes = 1 from rfl]
      norm_num [maxMultipartMemory])).1

/-! ### Lemmas about Base, Clean and Join, towards the upload-filename claim -/

theorem head_dropWhile_false {p : Char → Bool} :
    ∀ (l : List Char) {c : Char} {t : List Char}, l.dropWhile p = c :: t → p c = false := by
  intro l
  induction l with
  | nil => intro c t h; cases h
  | cons a r ih =>
    intro c t h
    rw [List.dropWhile_cons] at h
    by_cases hp : p a = true
    · rw [if_pos hp] at h
      exact ih h
    · rw [if_neg hp] at h
      cases h
      simpa using hp

theorem goBase_shape (f : List Char) :
    goBase f = ['/'] ∨ (goBase f ≠ [] ∧ '/' ∉ goBase f) := by
  unfold goBase
  by_cases hf : f = []
  · rw [if_pos hf]
    right
    exact ⟨by simp, by decide⟩
  · rw [if_neg hf]
    by_cases hq : f.reverse.dropWhile (· = '/') = []
    · rw [if_pos hq]
      left
      rfl
    · rw [if_neg hq]
      right
      obtain ⟨c, t, hct⟩ : ∃ c t, f.reverse.dropWhile (· = '/') = c :: t := by
        cases h : f.reverse.dropWhile (· = '/') with
        | nil => exact absurd h hq
        | cons c t => exact ⟨c, t, rfl⟩
      have hc : c ≠ '/' := by
        have := head_dropWhile_false (f.reverse) hct
        simpa using this
      constructor
      · rw [hct, List.takeWhile_cons_of_pos (by simpa using hc)]
        simp
      · intro hmem
        rw [List.mem_reverse] at hmem
        have := List.mem_takeWhile_imp hmem
        simp at this

theorem cleanSegsAux_nil (rooted : Bool) (out : List (List Char)) :
    cleanSegsAux [] rooted out = out.reverse := rfl

theorem cleanSegsAux_cons (s : List Char) (rest : List (List Char)) (rooted : Bool)
    (out : List (List Char)) :
    cleanSegsAux (s :: rest) rooted out =
      if s = [] ∨ s = ['.'] then cleanSegsAux rest rooted out
      else if s = ['.', '.'] then
        match out with
        | o :: os =>
          if o = ['.', '.'] then cleanSegsAux rest rooted (s :: o :: os)
          else cleanSegsAux rest rooted os
        | [] => if rooted then cleanSegsAux rest rooted [] else cleanSegsAux rest rooted [s]
      else cleanSegsAux rest rooted (s :: out) := rfl

theorem cleanSegsAux_skip {s : List Char} (h : s = [] ∨ s = ['.'])
    (rest : List (List Char)) (rooted : Bool) (out : List (List Char)) :
    cleanSegsAux (s :: rest) rooted out = cleanSegsAux rest rooted out := by
  rw [cleanSegsAux_cons, if_pos h]

theorem cleanSegsAux_push {s : List Char} (h : normalSeg s)
    (rest : List (List Char)) (rooted : Bool) (out : List (List Char)) :
    cleanSegsAux (s :: rest) rooted out = cleanSegsAux rest rooted (s :: out) := by
  rw [cleanSegsAux_cons,
    if_neg (by
      rintro (h1 | h2)
      · exact h.1 h1
      · exact h.2.1 h2),
    if_neg h.2.2.1]

theorem cleanSegsAux_pop {o : List Char} {os : List (List Char)} (ho : o ≠ ['.', '.'])
    (rest : List (List Char)) (rooted : Bool) :
    cleanSegsAux (['.', '.'] :: rest) rooted (o :: os) = cleanSegsAux rest rooted os := by
  rw [cleanSegsAux_cons, if_neg (by decide), if_pos rfl]
  show (if o = ['.', '.'] then cleanSegsAux rest rooted (['.', '.'] :: o :: os)
    else cleanSegsAux rest rooted os) = _
  rw [if_neg ho]

theorem cleanSegsAux_normal_run {xs : List (List Char)} (h : ∀ s ∈ xs, normalSeg s) :
    ∀ (ys : List (List Char)) (rooted : Bool) (out : List (List Char)),
      cleanSegsAux (xs ++ ys) rooted out = cleanSegsAux ys rooted (xs.reverse ++ out) := by
  induction xs with
  | nil => intro ys rooted out; simp
  | cons x xr ih =>
    intro ys rooted out
    rw [List.cons_append, cleanSegsAux_push (h x (List.mem_cons_self x xr)),
      ih (fun s hs => h s (List.mem_cons_of_mem x hs))]
    simp

theorem joinSegs_cons2 (s t : List Char) (r : List (List Char)) :
    joinSegs (s :: t :: r) = s ++ '/' :: joinSegs (t :: r) := rfl

theorem joinSegs_append_single {xs : List (List Char)} (hxs : xs ≠ []) (b : List Char) :
    joinSegs (xs ++ [b]) = joinSegs xs ++ '/' :: b := by
  induction xs with
  | nil => exact absurd rfl hxs
  | cons x xr ih =>
    cases xr with
    | nil => rfl
    | cons y yr =>
      rw [List.cons_append] at ih
      rw [List.cons_append, List.cons_append, joinSegs_cons2, ih (by simp), joinSegs_cons2]
      simp

theorem splitOnChar_joinSegs {segs : List (List Char)} (hne : segs ≠ [])
    (h : ∀ s ∈ segs, '/' ∉ s) : splitOnChar '/' (joinSegs segs) = segs := by
  induction segs with
  | nil => exact absurd rfl hne
  | cons s r ih =>
    cases r with
    | nil => exact splitOnChar_of_not_mem (h s (List.mem_cons_self s []))
    | cons t u =>
      rw [joinSegs_cons2, splitOnChar_append,
        splitOnChar_of_not_mem (h s (List.mem_cons_self s _)),
        ih (by simp) (fun x hx => h x (List.mem_cons_of_mem s hx))]
      rfl

theorem joinSegs_ne_nil {segs : List (List Char)} (hne : segs ≠ [])
    (h : ∀ s ∈ segs, s ≠ []) : joinSegs segs ≠ [] := by
  cases segs with
  | nil => exact absurd rfl hne
  | cons s r =>
    cases r with
    | nil => exact h s (List.mem_cons_self s [])
    | cons t u =>
      rw [joinSegs_cons2]
      cases hs : s with
      | nil => exact absurd hs (h s (List.mem_cons_self s _))
      | cons a b => simp

theorem cleanSegsAux_abs_head {segs : List (List Char)} (hnorm : ∀ s ∈ segs, normalSeg s)
    (X : List (List Char)) :
    cleanSegsAux (([] : List Char) :: (segs ++ X)) true []
      = cleanSegsAux X true segs.reverse := by
  rw [cleanSegsAux_skip (Or.inl rfl), cleanSegsAux_normal_run hnorm X true []]
  rw [List.append_nil]

theorem goJoin_renderAbs_normal (segs : List (List Char)) (b : List Char)
    (hne : segs ≠ []) (hnorm : ∀ s ∈ segs, normalSeg s) (hb : normalSeg b) :
    goJoin (renderAbs segs) b = renderAbs segs ++ '/' :: b := by
  have hrne : renderAbs segs ≠ [] := by unfold renderAbs; simp
  unfold goJoin
  rw [if_neg hrne, if_neg hb.1]
  have hform : renderAbs segs ++ '/' :: b = '/' :: (joinSegs segs ++ '/' :: b) := by
    unfold renderAbs
    rfl
  rw [hform]
  unfold goClean
  rw [if_neg (by simp : ('/' :: (joinSegs segs ++ '/' :: b) : List Char) ≠ []),
    if_pos (show ('/' :: (joinSegs segs ++ '/' :: b) : List Char).head? = some '/' from rfl)]
  have hsp : splitOnChar '/' ('/' :: (joinSegs segs ++ '/' :: b))
      = ([] : List Char) :: (segs ++ [b]) := by
    rw [splitOnChar_cons_sep, splitOnChar_append,
      splitOnChar_joinSegs hne (fun s hs => (hnorm s hs).2.2.2),
      splitOnChar_of_not_mem hb.2.2.2]
  rw [hsp]
  have hclean : cleanSegsAux (([] : List Char) :: (segs ++ [b])) true [] = segs ++ [b] := by
    rw [cleanSegsAux_abs_head hnorm [b], cleanSegsAux_push hb [] true segs.reverse,
      cleanSegsAux_nil]
    simp
  rw [hclean, joinSegs_append_single hne b,
    if_neg (by simp : ¬(joinSegs segs ++ '/' :: b = []))]

theorem goJoin_renderAbs_self (segs : List (List Char)) (b : List Char)
    (hne : segs ≠ []) (hnorm : ∀ s ∈ segs, normalSeg s)
    (hb : b = ['.'] ∨ b = ['/']) :
    goJoin (renderAbs segs) b = renderAbs segs := by
  have hrne : renderAbs segs ≠ [] := by unfold renderAbs; simp
  have hbne : b ≠ [] := by rcases hb with rfl | rfl <;> decide
  unfold goJoin
  rw [if_neg hrne, if_neg hbne]
  have hform : renderAbs segs ++ '/' :: b = '/' :: (joinSegs segs ++ '/' :: b) := by
    unfold renderAbs
    rfl
  rw [hform]
  unfold goClean
  rw [if_neg (by simp : ('/' :: (joinSegs segs ++ '/' :: b) : List Char) ≠ []),
    if_pos (show ('/' :: (joinSegs segs ++ '/' :: b) : List Char).head? = some '/' from rfl)]
  have hjoin : joinSegs (cleanSegsAux (splitOnChar '/'
      ('/' :: (joinSegs segs ++ '/' :: b))) true []) = joinSegs segs := by
    rcases hb with rfl | rfl
    · rw [splitOnChar_cons_sep, splitOnChar_append,
        splitOnChar_joinSegs hne (fun s hs => (hnorm s hs).2.2.2),
        splitOnChar_of_not_mem (by decide : '/' ∉ (['.'] : List Char)),
        cleanSegsAux_abs_head hnorm [['.']],
        cleanSegsAux_skip (Or.inr rfl), cleanSegsAux_nil, List.reverse_reverse]
    · rw [splitOnChar_cons_sep, splitOnChar_append,
        splitOnChar_joinSegs hne (fun s hs => (hnorm s hs).2.2.2),
        splitOnChar_cons_sep, splitOnChar_nil,
        cleanSegsAux_abs_head hnorm [[], []],
        cleanSegsAux_skip (Or.inl rfl), cleanSegsAux_skip (Or.inl rfl),
        cleanSegsAux_nil, List.reverse_reverse]
  rw [hjoin,
    if_neg (joinSegs_ne_nil hne (fun s hs => (hnorm s hs).1))]
  unfold renderAbs
  rfl

theorem goJoin_renderAbs_dotdot (segs : List (List Char))
    (hne : segs ≠ []) (hnorm : ∀ s ∈ segs, normalSeg s) :
    goJoin (renderAbs segs) ['.', '.'] = renderAbs segs.dropLast := by
  have hrne : renderAbs segs ≠ [] := by unfold renderAbs; simp
  unfold goJoin
  rw [if_neg hrne, if_neg (by decide : (['.', '.'] : List Char) ≠ [])]
  have hform : renderAbs segs ++ '/' :: ['.', '.']
      = '/' :: (joinSegs segs ++ '/' :: ['.', '.']) := by
    unfold renderAbs
    rfl
  rw [hform]
  unfold goClean
  rw [if_neg (by simp : ('/' :: (joinSegs segs ++ '/' :: ['.', '.']) : List Char) ≠ []),
    if_pos (show ('/' :: (joinSegs segs ++ '/' :: ['.', '.'])
      : List Char).head? = some '/' from rfl)]
  obtain ⟨o, os, hrev⟩ : ∃ o os, segs.reverse = o :: os := by
    cases h : segs.reverse with
    | nil => exact absurd (by simpa using congrArg List.reverse h) hne
    | cons o os => exact ⟨o, os, rfl⟩
  have ho : o ≠ ['.', '.'] := by
    have hom : o ∈ segs := by
      rw [← List.mem_reverse, hrev]
      exact List.mem_cons_self o os
    exact (hnorm o hom).2.2.1
  have hseg : segs = os.reverse ++ [o] := by
    rw [← List.reverse_reverse segs, hrev, List.reverse_cons]
  have hclean : cleanSegsAux (splitOnChar '/'
      ('/' :: (joinSegs segs ++ '/' :: ['.', '.']))) true [] = segs.dropLast := by
    rw [splitOnChar_cons_sep, splitOnChar_append,
      splitOnChar_joinSegs hne (fun s hs => (hnorm s hs).2.2.2),
      splitOnChar_of_not_mem (by decide : '/' ∉ (['.', '.'] : List Char)),
      cleanSegsAux_abs_head hnorm [['.', '.']], hrev,
      cleanSegsAux_pop ho [] true, cleanSegsAux_nil]
    conv_rhs => rw [hseg]
    rw [List.dropLast_concat]
  rw [hclean]
  by_cases hbody : joinSegs segs.dropLast = []
  · rw [if_pos hbody]
    unfold renderAbs
    rw [hbody]
  · rw [if_neg hbody]
    unfold renderAbs
    rfl

theorem uploadResponse_nodir_eq (wd : List Char) (dirs : List (List Char)) (req : UploadReq)
    (hwf : req.wellFormedMultipart = true) (hdir : req.directory = []) :
    uploadResponse wd dirs req =
      if goJoin wd (goBase req.filename) ∈ dirs then
        { status := 500, written := none }
      else
        { status := 303, written := some (goJoin wd (goBase req.filename), req.fileContent) } := by
  unfold uploadResponse parseMultipartFormOk
  rw [hwf, if_neg (by decide : ¬(true = false)), if_pos hdir]

/-- Counterexample for C8: the claim says a filename containing separator
sequences results in the file being written at the top level of the target
directory. For filename `a/..`, `filepath.Base` returns `..`, the destination
resolves to the parent of the target directory, and `os.Create` on that
existing directory fails: the request ends in 500 with no file written at
all (and the computed destination is not at the top level). -/
theorem upload_dotdot_not_toplevel :
    goBase "a/..".data = "..".data ∧
    goJoin "/srv/files".data (goBase "a/..".data) = "/srv".data ∧
    (uploadResponse "/srv/files".data ["/srv".data, "/srv/files".data]
      ⟨"a/..".data, [1, 2, 3], [], 0, true⟩).status = 500 ∧
    (uploadResponse "/srv/files".data ["/srv".data, "/srv/files".data]
      ⟨"a/..".data, [1, 2, 3], [], 0, true⟩).written = none := by
  decide

/-- Claim C8 (amended): the destination filename is always the base name of
the client-supplied filename; whenever the upload creates a file, that file
sits at the target directory's top level (target path plus one
separator-free component) with the full uploaded content — never outside —
while filenames whose base name degenerates to `.`, `..` or `/` make the
file creation fail with no write instead. (Stated for uploads without the
optional subdirectory field; the target directory is given by its segments,
and the filesystem contains the target directory and its parent, as is
always true on a real filesystem.) -/
theorem upload_filename_basename (wd : List Char) (dirs : List (List Char))
    (req : UploadReq) (segs : List (List Char))
    (hwd : wd = renderAbs segs) (hsne : segs ≠ [])
    (hsegs : ∀ s ∈ segs, normalSeg s)
    (hdir : req.directory = [])
    (hwdin : wd ∈ dirs) (hparent : renderAbs segs.dropLast ∈ dirs) :
    ∀ (pth : List Char) (c : List Nat),
      (uploadResponse wd dirs req).written = some (pth, c) →
      c = req.fileContent ∧
      pth = wd ++ '/' :: goBase req.filename ∧
      normalSeg (goBase req.filename) := by
  intro pth c h
  by_cases hwf : req.wellFormedMultipart = true
  · rw [uploadResponse_nodir_eq wd dirs req hwf hdir] at h
    by_cases hmem : goJoin wd (goBase req.filename) ∈ dirs
    · rw [if_pos hmem] at h
      cases h
    · rw [if_neg hmem] at h
      have hinj := Option.some.inj h
      have h1 : goJoin wd (goBase req.filename) = pth := congrArg Prod.fst hinj
      have h2 : req.fileContent = c := congrArg Prod.snd hinj
      subst hwd
      rcases goBase_shape req.filename with hbs | ⟨hbne, hbnos⟩
      · exfalso
        apply hmem
        rw [goJoin_renderAbs_self segs _ hsne hsegs (Or.inr hbs)]
        exact hwdin
      · by_cases hdot : goBase req.filename = ['.']
        · exfalso
          apply hmem
          rw [goJoin_renderAbs_self segs _ hsne hsegs (Or.inl hdot)]
          exact hwdin
        · by_cases hdd : goBase req.filename = ['.', '.']
          · exfalso
            apply hmem
            rw [hdd, goJoin_renderAbs_dotdot segs hsne hsegs]
            exact hparent
          · have hbnorm : normalSeg (goBase req.filename) := ⟨hbne, hdot, hdd, hbnos⟩
            refine ⟨h2.symm, ?_, hbnorm⟩
            rw [← h1, goJoin_renderAbs_normal segs _ hsne hsegs hbnorm]
  · exfalso
    have hnone : (uploadResponse wd dirs req).written = none := by
      unfold uploadResponse parseMultipartFormOk
      rw [if_pos (by
        cases hb : req.wellFormedMultipart
        · rfl
        · exact absurd hb hwf)]
    rw [hnone] at h
    cases h

/-- Witness for C8 (amended): uploading a file named `dir/evil.txt` into
/srv/files writes it at /srv/files/evil.txt, the top level of the target. -/
theorem upload_filename_basename_witness :
    (([5] : List Nat) = ([5] : List Nat)) ∧
    "/srv/files/evil.txt".data = "/srv/files".data ++ '/' :: goBase "dir/evil.txt".data :=
  ⟨(upload_filename_basename "/srv/files".data ["/srv".data, "/srv/files".data]
      ⟨"dir/evil.txt".data, [5], [], 0, true⟩ ["srv".data, "files".data]
      (by decide) (by decide) (by decide) rfl (by decide) (by decide)
      "/srv/files/evil.txt".data [5] (by decide)).1.symm ▸ rfl,
   (upload_filename_basename "/srv/files".data ["/srv".data, "/srv/files".data]
      ⟨"dir/evil.txt".data, [5], [], 0, true⟩ ["srv".data, "files".data]
      (by decide) (by decide) (by decide) rfl (by decide) (by decide)
      "/srv/files/evil.txt".data [5] (by decide)).2.1⟩
